import Mathlib

/-!
# A shallow embedding of the `e` namespace e-graph engine

This file embeds the e-graph implementation of `EGraph.h` (namespace `e`) and
the DTO serializer of `Serialization.h`, and proves or refutes the behavioural
claims made by the specification.

Modelling conventions, fixed once here:

* `ClassId` is `int32_t` in the source, but ids are only ever allocated
  consecutively from `0` by `UnionFind::addSet`, so they are modelled as `Nat`.
* `Term` objects are shared (`std::shared_ptr<Term>`); sharing and in-place
  mutation of `childrenIds` are observable, so terms live in an explicit
  allocation arena (`heap : List TermData`) and are referenced by their
  allocation index (`Addr`).  `operator==(Term::Ptr, Term::Ptr)` is pointer
  equality or structural equality; two live pointers are equal exactly when
  their current heap data coincide (pointer equality implies identical data),
  so it is modelled as equality of heap data.
* `Term::Hash` hashes the name only, so an in-place rewrite of a term's
  children never moves it between buckets of `termsCache`.  `termsCache` is
  modelled as an association list: lookups return the first entry whose data
  equals the query, and fresh entries are prepended, matching the
  newest-first in-bucket order of the common `std::unordered_map`
  implementations (libstdc++/libc++ insert at bucket head).
* `classes` (an `unordered_map<ClassId, unique_ptr<Class>>`) is modelled as an
  association list in insertion order; iteration order of the C++ map is
  unspecified and the modelled order is one legal choice.
* The `while` loops (`UnionFind::find`, the rebuild worklist) are modelled
  with explicit fuel; `find` uses fuel `parents.length`, which suffices for
  every parent forest (`UFWF` below), and the rebuild worklist fuel appears as
  an explicit argument.  "Rebuild completed" is observable as an empty dirty
  worklist of the result.
* The non-const `UnionFind::find` additionally performs path-halving
  compression.  Compression rewrites internal parent links only and never
  changes the root an id resolves to, so every `find` call is modelled with
  the non-mutating (const overload) semantics.
* Failed `assert`s in the source abort the program; the model gives those
  branches a harmless total behaviour (lookups with defaults).  No claim is
  settled on an input that would trip an assertion.
-/

namespace EGraphModel

/-! ## Union-find (`UnionFind<Id>`, EGraph.h:70-114) -/

/-- One step of the parent walk: `parents[id]`, with out-of-range ids acting
as their own parent (such ids never occur in runs that pass the source's
assertions). -/
def ufStep (ps : List Nat) (i : Nat) : Nat := ps.getD i i

/-- `UnionFind::find` (const overload, EGraph.h:82-90): follow parent links to
a fixed point, with explicit fuel. -/
def findAux (ps : List Nat) : Nat → Nat → Nat
  | 0, i => i
  | fuel + 1, i => if ufStep ps i = i then i else findAux ps fuel (ufStep ps i)

/-- `UnionFind::find` with the fuel that suffices on every parent forest. -/
def ufFind (ps : List Nat) (i : Nat) : Nat := findAux ps ps.length i

/-- `UnionFind::addSet` (EGraph.h:75-80). -/
def ufAddSet (ps : List Nat) : Nat × List Nat := (ps.length, ps ++ [ps.length])

/-- `UnionFind::unite` (EGraph.h:105-109): `parents[root2] = root1`. -/
def ufUnite (ps : List Nat) (root1 root2 : Nat) : List Nat := ps.set root2 root1

/-- `id` is a union-find root: it is its own parent. -/
def IsRoot (ps : List Nat) (i : Nat) : Prop := ufStep ps i = i

instance (ps : List Nat) (i : Nat) : Decidable (IsRoot ps i) := by
  unfold IsRoot; infer_instance

/-- Well-formedness of the parent array: parents stay in range and every id
resolves to a root within `length - 1` steps.  This holds for every state the
source can reach (links are only ever created from one root to another) and is
decidable, so concrete witnesses can check it by evaluation. -/
def UFWF (ps : List Nat) : Prop :=
  (∀ v ∈ ps, v < ps.length) ∧
    ∀ i < ps.length, IsRoot ps (findAux ps (ps.length - 1) i)

instance (ps : List Nat) : Decidable (UFWF ps) := by
  unfold UFWF; exact instDecidableAnd

theorem isRoot_iff {ps : List Nat} {i : Nat} : IsRoot ps i ↔ ufStep ps i = i :=
  Iff.rfl

theorem findAux_of_isRoot {ps : List Nat} {i : Nat} (h : IsRoot ps i) :
    ∀ k, findAux ps k i = i := by
  intro k
  cases k with
  | zero => rfl
  | succ k => simp [findAux, isRoot_iff.mp h]

theorem findAux_succ_of_not_root {ps : List Nat} {i : Nat} (h : ¬ IsRoot ps i)
    (k : Nat) : findAux ps (k + 1) i = findAux ps k (ufStep ps i) := by
  have h' : ¬ ufStep ps i = i := fun hc => h (isRoot_iff.mpr hc)
  simp [findAux, h']

theorem findAux_add (ps : List Nat) (k m i : Nat) :
    findAux ps (k + m) i = findAux ps m (findAux ps k i) := by
  induction k generalizing i with
  | zero => simp [findAux]
  | succ k ih =>
      by_cases h : IsRoot ps i
      · rw [findAux_of_isRoot h, findAux_of_isRoot h, findAux_of_isRoot h]
      · have : k + 1 + m = (k + m) + 1 := by omega
        rw [this, findAux_succ_of_not_root h, findAux_succ_of_not_root h, ih]

theorem findAux_stable {ps : List Nat} {k i : Nat}
    (h : IsRoot ps (findAux ps k i)) {m : Nat} (hkm : k ≤ m) :
    findAux ps m i = findAux ps k i := by
  have : m = k + (m - k) := by omega
  rw [this, findAux_add, findAux_of_isRoot h]

theorem findAux_lt {ps : List Nat} (hb : ∀ v ∈ ps, v < ps.length)
    {i : Nat} (hi : i < ps.length) (k : Nat) : findAux ps k i < ps.length := by
  induction k generalizing i with
  | zero => exact hi
  | succ k ih =>
      by_cases h : IsRoot ps i
      · rw [findAux_of_isRoot h]; exact hi
      · rw [findAux_succ_of_not_root h]
        have hmem : ufStep ps i ∈ ps := by
          have : ps.getD i i = ps[i] := List.getD_eq_getElem ps i hi
          rw [ufStep, this]
          exact List.getElem_mem hi
        exact ih (hb _ hmem)

theorem ufFind_root {ps : List Nat} (hwf : UFWF ps) (i : Nat) :
    IsRoot ps (ufFind ps i) := by
  by_cases hi : i < ps.length
  · have hr := hwf.2 i hi
    have : findAux ps ps.length i = findAux ps (ps.length - 1) i :=
      findAux_stable hr (by omega)
    rw [ufFind, this]; exact hr
  · have hroot : IsRoot ps i := by
      unfold IsRoot ufStep
      exact List.getD_eq_default ps i (by omega)
    rw [ufFind, findAux_of_isRoot hroot]; exact hroot

theorem ufFind_of_isRoot {ps : List Nat} {i : Nat} (h : IsRoot ps i) :
    ufFind ps i = i := findAux_of_isRoot h _

theorem ufFind_idem {ps : List Nat} (hwf : UFWF ps) (i : Nat) :
    ufFind ps (ufFind ps i) = ufFind ps i :=
  ufFind_of_isRoot (ufFind_root hwf i)

theorem ufStep_set_ne {ps : List Nat} {r v i : Nat} (h : i ≠ r) :
    ufStep (ps.set r v) i = ufStep ps i := by
  unfold ufStep
  simp [List.getD_eq_getElem?_getD, List.getElem?_set_ne (Ne.symm h)]

theorem findAux_set_not_visited {ps : List Nat} {r v : Nat} {k i : Nat}
    (h : ∀ m < k, findAux ps m i ≠ r) :
    findAux (ps.set r v) k i = findAux ps k i := by
  induction k generalizing i with
  | zero => rfl
  | succ k ih =>
      have hir : i ≠ r := by
        have := h 0 (Nat.succ_pos k)
        simpa [findAux] using this
      have hstep : ufStep (ps.set r v) i = ufStep ps i := ufStep_set_ne hir
      by_cases hroot : IsRoot ps i
      · have hroot' : IsRoot (ps.set r v) i := by
          unfold IsRoot at *; rw [hstep]; exact hroot
        rw [findAux_of_isRoot hroot, findAux_of_isRoot hroot']
      · have hroot' : ¬ IsRoot (ps.set r v) i := by
          unfold IsRoot at *; rw [hstep]; exact hroot
        rw [findAux_succ_of_not_root hroot, findAux_succ_of_not_root hroot', hstep]
        refine ih ?_
        intro m hm
        have := h (m + 1) (by omega)
        rwa [findAux_succ_of_not_root hroot] at this

theorem findAux_ne_of_ufFind_ne {ps : List Nat} (hwf : UFWF ps) {i r : Nat}
    (hroot : IsRoot ps r) (hR : ufFind ps i ≠ r) : ∀ m, findAux ps m i ≠ r := by
  intro m heq
  rcases le_or_lt m ps.length with h | h
  · exact hR (by rw [ufFind, findAux_stable (heq ▸ hroot) h, heq])
  · have hstab := findAux_stable (ufFind_root hwf i) (le_of_lt h)
    exact hR (by rw [ufFind, ← hstab, heq])

/-- Pigeonhole bound: if the parent walk from `i` first reaches the root `r2`
after `Nat.find hex` steps, that takes at most `length - 2` steps, because the
nodes visited on the way are pairwise distinct, in range, and avoid the other
root `r1`. -/
theorem reach_bound {ps : List Nat} (hwf : UFWF ps) {i r1 r2 : Nat}
    (hr1 : IsRoot ps r1) (hne : r1 ≠ r2) (h1 : r1 < ps.length)
    (hi : i < ps.length) (hex : ∃ m, findAux ps m i = r2) :
    Nat.find hex + 2 ≤ ps.length := by
  have hm0 : findAux ps (Nat.find hex) i = r2 := Nat.find_spec hex
  have hmin : ∀ m < Nat.find hex, findAux ps m i ≠ r2 :=
    fun m hm => Nat.find_min hex hm
  have hdist : ∀ a b, a < b → b ≤ Nat.find hex →
      findAux ps a i ≠ findAux ps b i := by
    intro a b hab hb heq
    have h3 : findAux ps (a + (Nat.find hex - b)) i = r2 := by
      rw [findAux_add, heq, ← findAux_add]
      have h4 : b + (Nat.find hex - b) = Nat.find hex := by omega
      rw [h4, hm0]
    exact hmin _ (by omega) h3
  have hr1not : ∀ m ≤ Nat.find hex, findAux ps m i ≠ r1 := by
    intro m hm heq
    have h5 : findAux ps (Nat.find hex) i = r1 := by
      have h4 : Nat.find hex = m + (Nat.find hex - m) := by omega
      rw [h4, findAux_add, heq, findAux_of_isRoot hr1]
    exact hne (by rw [← h5, hm0])
  have hmapnd :
      ((List.range (Nat.find hex + 1)).map (fun m => findAux ps m i)).Nodup := by
    rw [List.Nodup, List.pairwise_map]
    refine (List.pairwise_lt_range _).imp_of_mem ?_
    intro a b ha hb hab
    exact hdist a b hab (by simpa using Nat.lt_succ_iff.mp (List.mem_range.mp hb))
  have hnd :
      (r1 :: (List.range (Nat.find hex + 1)).map (fun m => findAux ps m i)).Nodup := by
    refine List.nodup_cons.mpr ⟨?_, hmapnd⟩
    intro hc
    obtain ⟨m, hm, hmeq⟩ := List.mem_map.mp hc
    exact hr1not m (Nat.lt_succ_iff.mp (List.mem_range.mp hm)) hmeq
  have hsub :
      (r1 :: (List.range (Nat.find hex + 1)).map (fun m => findAux ps m i)).toFinset
        ⊆ Finset.range ps.length := by
    intro x hx
    rcases List.mem_cons.mp (List.mem_toFinset.mp hx) with rfl | hx
    · exact Finset.mem_range.mpr h1
    · obtain ⟨m, _, rfl⟩ := List.mem_map.mp hx
      exact Finset.mem_range.mpr (findAux_lt hwf.1 hi m)
  have hcard := Finset.card_le_card hsub
  rw [List.toFinset_card_of_nodup hnd, Finset.card_range] at hcard
  simpa using hcard

/-- After linking root `r2` under root `r1`, the walk from a node whose old
root was `r2` reaches `r1`, within the fuel budget. -/
theorem ufSet_reaches {ps : List Nat} (hwf : UFWF ps) {r1 r2 i : Nat}
    (hr1 : IsRoot ps r1) (hr2 : IsRoot ps r2) (hne : r1 ≠ r2)
    (h1 : r1 < ps.length) (h2 : r2 < ps.length) (hi : i < ps.length)
    (hR : ufFind ps i = r2) :
    ∃ k, k + 2 ≤ ps.length ∧ findAux (ps.set r2 r1) (k + 1) i = r1 := by
  have hex : ∃ m, findAux ps m i = r2 := ⟨ps.length, hR⟩
  refine ⟨Nat.find hex, reach_bound hwf hr1 hne h1 hi hex, ?_⟩
  have hpre : findAux (ps.set r2 r1) (Nat.find hex) i = r2 := by
    rw [findAux_set_not_visited (fun m hm => Nat.find_min hex hm)]
    exact Nat.find_spec hex
  have hstep2 : ufStep (ps.set r2 r1) r2 = r1 := by
    unfold ufStep
    simp [List.getD_eq_getElem?_getD, List.getElem?_set_self, h2]
  rw [findAux_add, hpre]
  have hne2 : ¬ IsRoot (ps.set r2 r1) r2 := by
    rw [isRoot_iff, hstep2]; exact hne
  rw [findAux_succ_of_not_root hne2 0, hstep2]
  rfl

theorem isRoot_set_of_ne {ps : List Nat} {r v i : Nat} (h : i ≠ r)
    (hroot : IsRoot ps i) : IsRoot (ps.set r v) i := by
  unfold IsRoot at *; rw [ufStep_set_ne h]; exact hroot

/-- Linking two distinct roots rewrites `find` answers pointwise: everything
that resolved to `r2` now resolves to `r1`, everything else is unchanged. -/
theorem ufFind_set {ps : List Nat} (hwf : UFWF ps) {r1 r2 : Nat}
    (hr1 : IsRoot ps r1) (hr2 : IsRoot ps r2) (hne : r1 ≠ r2)
    (h1 : r1 < ps.length) (h2 : r2 < ps.length) (i : Nat) :
    ufFind (ps.set r2 r1) i = if ufFind ps i = r2 then r1 else ufFind ps i := by
  have hlen : (ps.set r2 r1).length = ps.length := List.length_set ps r2 r1
  by_cases hi : i < ps.length
  · by_cases hR : ufFind ps i = r2
    · obtain ⟨k, hk, hval⟩ := ufSet_reaches hwf hr1 hr2 hne h1 h2 hi hR
      have hroot1' : IsRoot (ps.set r2 r1) r1 := isRoot_set_of_ne hne hr1
      have hroot' : IsRoot (ps.set r2 r1) (findAux (ps.set r2 r1) (k + 1) i) := by
        rw [hval]; exact hroot1'
      rw [if_pos hR, ufFind, hlen, findAux_stable hroot' (by omega), hval]
    · have hnv := findAux_ne_of_ufFind_ne hwf hr2 hR
      rw [if_neg hR, ufFind, ufFind, hlen,
        findAux_set_not_visited (fun m _ => hnv m)]
  · have hroot : IsRoot ps i := by
      unfold IsRoot ufStep
      exact List.getD_eq_default ps i (by omega)
    have hroot' : IsRoot (ps.set r2 r1) i :=
      isRoot_set_of_ne (by omega) hroot
    rw [ufFind_of_isRoot hroot', ufFind_of_isRoot hroot, if_neg (by omega)]

/-- Linking two distinct roots preserves union-find well-formedness. -/
theorem UFWF_set {ps : List Nat} (hwf : UFWF ps) {r1 r2 : Nat}
    (hr1 : IsRoot ps r1) (hr2 : IsRoot ps r2) (hne : r1 ≠ r2)
    (h1 : r1 < ps.length) (h2 : r2 < ps.length) : UFWF (ps.set r2 r1) := by
  have hlen : (ps.set r2 r1).length = ps.length := List.length_set ps r2 r1
  constructor
  · intro v hv
    rw [hlen]
    rcases List.mem_or_eq_of_mem_set hv with hv | rfl
    · exact hwf.1 v hv
    · exact h1
  · intro i hi
    rw [hlen] at hi ⊢
    by_cases hR : ufFind ps i = r2
    · obtain ⟨k, hk, hval⟩ := ufSet_reaches hwf hr1 hr2 hne h1 h2 hi hR
      have hroot1' : IsRoot (ps.set r2 r1) r1 := isRoot_set_of_ne hne hr1
      have hroot' : IsRoot (ps.set r2 r1) (findAux (ps.set r2 r1) (k + 1) i) := by
        rw [hval]; exact hroot1'
      rw [findAux_stable hroot' (by omega)]
      exact hroot'
    · have hnv := findAux_ne_of_ufFind_ne hwf hr2 hR
      rw [findAux_set_not_visited (fun m _ => hnv m)]
      have hr := hwf.2 i hi
      have hv2 : findAux ps (ps.length - 1) i ≠ r2 := hnv _
      exact isRoot_set_of_ne hv2 hr

/-! ## Terms, classes, graph state (EGraph.h:119-242, 309-593) -/

/-- The contents of one `Term` object (`e::Term`, EGraph.h:119-168): the
immutable `name` plus the mutable `childrenIds`. -/
structure TermData where
  name : String
  children : List Nat
deriving DecidableEq

/-- Address of a `Term` object in the allocation arena; models `Term::Ptr`. -/
abbrev Addr := Nat

/-- `e::TermWithLeafId` (EGraph.h:171-175). -/
structure TermWithLeafId where
  term : Addr
  termId : Nat
deriving DecidableEq

/-- `e::Class` (EGraph.h:180-242). -/
structure ClassData where
  id : Nat
  terms : List Addr
  parents : List TermWithLeafId
deriving DecidableEq

/-- `e::Graph` (EGraph.h:309-593), together with the term allocation arena
that realizes the `shared_ptr<Term>` sharing. -/
structure Graph where
  unionFind : List Nat
  classes : List (Nat × ClassData)
  termsCache : List (Addr × Nat)
  dirtyTerms : List TermWithLeafId
  heap : List TermData
deriving DecidableEq

/-- Default used for dereferencing addresses never allocated (cannot occur in
runs that pass the source's assertions). -/
def emptyTerm : TermData := ⟨"", []⟩

def Graph.heapData (g : Graph) (a : Addr) : TermData := g.heap.getD a emptyTerm

def Graph.empty : Graph := ⟨[], [], [], [], []⟩

/-- `Graph::find` (EGraph.h:313-316), the public const lookup. -/
def Graph.find (g : Graph) (i : Nat) : Nat := ufFind g.unionFind i

/-- `Class::addParent` (EGraph.h:202-205). -/
def ClassData.addParent (c : ClassData) (t : Addr) (parentClassId : Nat) : ClassData :=
  { c with parents := c.parents ++ [⟨t, parentClassId⟩] }

/-- `Class::uniteWith` (EGraph.h:207-212).  `appendVector` (EGraph.h:41-45)
inserts the second vector at the beginning of the first. -/
def ClassData.uniteWith (c other : ClassData) : ClassData :=
  { c with terms := other.terms ++ c.terms,
           parents := other.parents ++ c.parents }

/-- `Term::restoreInvariants` (EGraph.h:152-159): rewrite each child id to its
root.  The mutation happens in place on the shared object, i.e. on the heap. -/
def canonTermHeap (ps : List Nat) (heap : List TermData) (a : Addr) : List TermData :=
  let d := heap.getD a emptyTerm
  heap.set a { d with children := d.children.map (ufFind ps) }

/-- `std::unique` on a whole vector: drop every element equivalent to the last
kept element, keeping the first element of each run. -/
def cppUniqueAux {α : Type} (eqv : α → α → Bool) : α → List α → List α
  | _, [] => []
  | last, x :: xs =>
      if eqv last x then cppUniqueAux eqv last xs else x :: cppUniqueAux eqv x xs

def cppUnique {α : Type} (eqv : α → α → Bool) : List α → List α
  | [] => []
  | x :: xs => x :: cppUniqueAux eqv x xs

/-- `operator==(Term::Ptr, Term::Ptr)` (EGraph.h:136-140): pointer equality or
(name, children) equality.  Two live pointers are pointer-equal exactly when
they are the same allocation, in which case their data agree, so the operator
is equality of current heap data. -/
def termEqB (heap : List TermData) (a b : Addr) : Bool :=
  heap.getD a emptyTerm == heap.getD b emptyTerm

/-- `Class::restoreInvariants` (EGraph.h:214-233): canonicalize every member
term, then sort the `terms` vector (by `shared_ptr` ordering, i.e. pointer
value = allocation order) and `std::unique` it with `operator==`.  The
`parents` vector is left untouched (see the `fixme` comment in the source). -/
def ClassData.restoreInvariants (c : ClassData) (ps : List Nat)
    (heap : List TermData) : ClassData × List TermData :=
  let heap1 := c.terms.foldl (fun h a => canonTermHeap ps h a) heap
  -- `std::sort` on Nat keys: ties are identical elements, so every correct
  -- sort produces the same list; modelled by insertion sort.
  let sorted := c.terms.insertionSort (· ≤ ·)
  ({ c with terms := cppUnique (termEqB heap1) sorted }, heap1)

/-- `classes.find(id)` / `classes.at(id)` on the class map. -/
def Graph.classesFind (g : Graph) (id : Nat) : Option ClassData :=
  (g.classes.find? (fun e => e.1 == id)).map (·.2)

/-- `classes[id] = c`: assign through the existing key or insert. -/
def classesAssign (cs : List (Nat × ClassData)) (id : Nat) (c : ClassData) :
    List (Nat × ClassData) :=
  if cs.any (fun e => e.1 == id) then
    cs.map (fun e => if e.1 == id then (id, c) else e)
  else cs ++ [(id, c)]

/-- `termsCache.find(term)`: first entry whose key compares equal to the
query data under `operator==` (see `termEqB`); `Term::Hash` hashes the name
only, so entries stay findable after in-place child rewrites. -/
def Graph.lookupData (g : Graph) (d : TermData) : Option Nat :=
  (g.termsCache.find? (fun e => g.heapData e.1 == d)).map (·.2)

/-- `Graph::lookup` (EGraph.h:573-582). -/
def Graph.lookup (g : Graph) (t : Addr) : Option Nat :=
  g.lookupData (g.heapData t)

/-- Value assignment through the first key comparing equal to `t` (the key
object is kept, only its mapped value changes). -/
def cacheAssignGo (heap : List TermData) : List (Addr × Nat) → Addr → Nat →
    List (Addr × Nat)
  | [], _, _ => []
  | e :: es, t, v =>
      if termEqB heap e.1 t then (e.1, v) :: es
      else e :: cacheAssignGo heap es t v

/-- `termsCache[t] = v`: assign through the first key comparing equal to `t`,
or insert at the bucket head when there is none. -/
def cacheAssign (heap : List TermData) (c : List (Addr × Nat)) (t : Addr)
    (v : Nat) : List (Addr × Nat) :=
  if c.any (fun e => termEqB heap e.1 t) then cacheAssignGo heap c t v
  else (t, v) :: c

/-- `Graph::unite` (EGraph.h:338-369). -/
def Graph.unite (g : Graph) (termId1 termId2 : Nat) : Bool × Graph :=
  let rootId1 := ufFind g.unionFind termId1
  let rootId2 := ufFind g.unionFind termId2
  if rootId1 = rootId2 then (false, g)
  else
    -- make sure the new root has more parents
    let p1 := ((g.classesFind rootId1).map (fun c => c.parents.length)).getD 0
    let p2 := ((g.classesFind rootId2).map (fun c => c.parents.length)).getD 0
    let roots := if p1 < p2 then (rootId2, rootId1) else (rootId1, rootId2)
    let uf1 := ufUnite g.unionFind roots.1 roots.2
    let class1 := (g.classesFind roots.1).getD ⟨roots.1, [], []⟩
    let class2 := (g.classesFind roots.2).getD ⟨roots.2, [], []⟩
    let dirty1 := class2.parents ++ g.dirtyTerms
    let classes1 := classesAssign g.classes roots.1 (class1.uniteWith class2)
    let classes2 := classes1.filter (fun e => e.1 != roots.2)
    (true, { g with unionFind := uf1, classes := classes2, dirtyTerms := dirty1 })

/-- `Graph::add` (EGraph.h:547-571).  The C++ allocates the term object before
the cache lookup and lets the temporary die on a cache hit; the model
allocates on the miss path only, which leaves the same observable state. -/
def Graph.add (g : Graph) (d : TermData) : Nat × Graph :=
  match g.lookupData d with
  | some existingClassId => (existingClassId, g)
  | none =>
      let newId := g.unionFind.length
      let uf1 := (ufAddSet g.unionFind).2
      let addr := g.heap.length
      let classes1 := d.children.foldl
        (fun cs childClassId =>
          let rootChildClassId := ufFind uf1 childClassId
          match ((cs.find? (fun e => e.1 == rootChildClassId)).map (·.2)) with
          | some c => classesAssign cs rootChildClassId (c.addParent addr newId)
          | none => cs)
        g.classes
      let classes2 := classesAssign classes1 newId ⟨newId, [addr], []⟩
      (newId,
        { unionFind := uf1
          classes := classes2
          termsCache := (addr, newId) :: g.termsCache
          dirtyTerms := g.dirtyTerms ++ [⟨addr, newId⟩]
          heap := g.heap ++ [d] })

/-- `Graph::addTerm` (EGraph.h:328-331). -/
def Graph.addTerm (g : Graph) (name : String) : Nat × Graph := g.add ⟨name, []⟩

/-- `Graph::addOperation` (EGraph.h:333-336). -/
def Graph.addOperation (g : Graph) (name : String) (children : List Nat) :
    Nat × Graph :=
  g.add ⟨name, children⟩

/-- The `while (!dirtyTerms.empty())` worklist of `Graph::restoreInvariants`
(EGraph.h:375-393), with explicit fuel.  `pop_back` takes the last element;
the popped term's children are canonicalized in place, then the cache is
searched (never erased) and either the congruence `unite` fires or the term
is (re)inserted. -/
def Graph.restoreInvariantsLoop : Nat → Graph → Graph
  | 0, g => g
  | fuel + 1, g =>
      match g.dirtyTerms.getLast? with
      | none => g
      | some updated =>
          let g1 : Graph :=
            { g with dirtyTerms := g.dirtyTerms.dropLast,
                     heap := canonTermHeap g.unionFind g.heap updated.term }
          match g1.lookup updated.term with
          | some cachedTermId =>
              let g2 := (g1.unite cachedTermId updated.termId).2
              let g3 : Graph :=
                { g2 with termsCache :=
                    cacheAssign g2.heap g2.termsCache updated.term updated.termId }
              Graph.restoreInvariantsLoop fuel g3
          | none =>
              Graph.restoreInvariantsLoop fuel
                { g1 with termsCache := (updated.term, updated.termId) :: g1.termsCache }

/-- The second phase of `Graph::restoreInvariants` (EGraph.h:395-402):
canonicalize every live class. -/
def Graph.rebuildClasses (g : Graph) : Graph :=
  let folded := g.classes.foldl
    (fun (acc : List (Nat × ClassData) × List TermData) e =>
      let r := e.2.restoreInvariants g.unionFind acc.2
      (acc.1 ++ [(e.1, r.1)], r.2))
    ([], g.heap)
  { g with classes := folded.1, heap := folded.2 }

/-- `Graph::restoreInvariants` (EGraph.h:371-402): drain the dirty worklist,
then repair the classes.  The rebuild ran to completion exactly when the
result's `dirtyTerms` is empty. -/
def Graph.restoreInvariants (fuel : Nat) (g : Graph) : Graph :=
  (Graph.restoreInvariantsLoop fuel g).rebuildClasses

/-! ## Pattern engine (EGraph.h:247-304, 404-543)

`SymbolBindings` objects are reference-counted and shared
(`SymbolBindings::Ptr`); `matchVariable` mutates the pointed-to object in
place.  The model therefore keeps a bindings store (`List Bindings`) and
passes indices (`BPtr`) around, exactly mirroring the pointer flow of the
source.  The mutually recursive matcher walks finite structures only; the
model uses one shared fuel argument, decremented on every recursive call,
which is irrelevant on any run given enough fuel. -/

/-- `e::Pattern` (EGraph.h:255-261): a variable symbol or a pattern term. -/
inductive Pattern where
  | var (symbol : String)
  | term (name : String) (arguments : List Pattern)

/-- The payload of one `SymbolBindings` object (EGraph.h:263-284). -/
abbrev Bindings := List (String × Nat)

/-- Index of a `SymbolBindings` object in the bindings store; models
`SymbolBindings::Ptr`. -/
abbrev BPtr := Nat

/-- `SymbolBindings::find` (EGraph.h:267-276). -/
def bindingsFindMap (b : Bindings) (s : String) : Option Nat :=
  (b.find? (fun e => e.1 == s)).map (·.2)

/-- `SymbolBindings::add` (EGraph.h:278-281): `bindings[symbol] = classId`. -/
def bindingsAddMap (b : Bindings) (s : String) (v : Nat) : Bindings :=
  if b.any (fun e => e.1 == s) then
    b.map (fun e => if e.1 == s then (s, v) else e)
  else b ++ [(s, v)]

/-- `e::RewriteRule` (EGraph.h:286-290). -/
structure RewriteRule where
  leftHand : Pattern
  rightHand : Pattern

/-- `Graph::matchVariable` (EGraph.h:443-462).  Note that the unbound case
mutates the shared bindings object through the pointer and returns the same
pointer. -/
def Graph.matchVariable (g : Graph) (symbol : String) (classId : Nat)
    (p : BPtr) (bs : List Bindings) : List BPtr × List Bindings :=
  let rootId := ufFind g.unionFind classId
  match bindingsFindMap (bs.getD p []) symbol with
  | some matchedClassId =>
      if ufFind g.unionFind matchedClassId = rootId then ([p], bs) else ([], bs)
  | none => ([p], bs.set p (bindingsAddMap (bs.getD p []) symbol rootId))

/-- Work items of the matcher call graph: `matchPattern` on a pattern, the
per-class-term loop of `matchTerm`, `matchMany` on a pattern row, and the
`for (subBinding1 : ...)` loop of `matchMany`.  The mutually recursive
source functions are modelled as one fuel-structural function over these
items (so that the kernel can evaluate it); each constructor corresponds to
one source function. -/
inductive MatchJob where
  | pat (pattern : Pattern) (classId : Nat) (b : BPtr)
  | termLoop (name : String) (args : List Pattern) (ts : List Addr) (b : BPtr)
  | many (pats : List Pattern) (classIds : List Nat) (b : BPtr)
  | manyLoop (pats : List Pattern) (classIds : List Nat) (subs : List BPtr)

/-- The matcher (EGraph.h:425-509) as one fueled worker; see `MatchJob`. -/
def Graph.matchAux (g : Graph) : Nat → MatchJob → List Bindings →
    List BPtr × List Bindings
  | 0, _, bs => ([], bs)
  | _ + 1, MatchJob.pat (Pattern.var s) classId p, bs =>
      g.matchVariable s classId p bs
  | fuel + 1, MatchJob.pat (Pattern.term n args) classId p, bs =>
      -- `Graph::matchTerm` (EGraph.h:464-487)
      let rootId := ufFind g.unionFind classId
      let cls := (g.classesFind rootId).getD ⟨rootId, [], []⟩
      Graph.matchAux g fuel (MatchJob.termLoop n args cls.terms p) bs
  | _ + 1, MatchJob.termLoop _ _ [] _, bs => ([], bs)
  | fuel + 1, MatchJob.termLoop name args (t :: ts) p, bs =>
      let d := g.heapData t
      if d.name == name && d.children.length == args.length then
        let r1 := Graph.matchAux g fuel (MatchJob.many args d.children p) bs
        let r2 := Graph.matchAux g fuel (MatchJob.termLoop name args ts p) r1.2
        (r1.1 ++ r2.1, r2.2)
      else Graph.matchAux g fuel (MatchJob.termLoop name args ts p) bs
  | _ + 1, MatchJob.many [] _ p, bs => ([p], bs)
  | fuel + 1, MatchJob.many (pat :: pats) classIds p, bs =>
      let r1 := Graph.matchAux g fuel (MatchJob.pat pat (classIds.headD 0) p) bs
      Graph.matchAux g fuel (MatchJob.manyLoop pats classIds.tail r1.1) r1.2
  | _ + 1, MatchJob.manyLoop _ _ [], bs => ([], bs)
  | fuel + 1, MatchJob.manyLoop pats classIds (s :: ss), bs =>
      let r1 := Graph.matchAux g fuel (MatchJob.many pats classIds s) bs
      let r2 := Graph.matchAux g fuel (MatchJob.manyLoop pats classIds ss) r1.2
      (r1.1 ++ r2.1, r2.2)

/-- `Graph::matchPattern` (EGraph.h:425-439). -/
def Graph.matchPattern (g : Graph) (fuel : Nat) (pattern : Pattern)
    (classId : Nat) (p : BPtr) (bs : List Bindings) :
    List BPtr × List Bindings :=
  Graph.matchAux g fuel (MatchJob.pat pattern classId p) bs

/-- `Graph::matchMany` (EGraph.h:489-509). -/
def Graph.matchMany (g : Graph) (fuel : Nat) (pats : List Pattern)
    (classIds : List Nat) (p : BPtr) (bs : List Bindings) :
    List BPtr × List Bindings :=
  Graph.matchAux g fuel (MatchJob.many pats classIds p) bs

/-- Work items of `instantiatePattern`: one pattern, or the children row of
`instantiateOperation`. -/
inductive InstJob where
  | one (pattern : Pattern)
  | row (pats : List Pattern)

/-- `Graph::instantiatePattern` (EGraph.h:511-543) as one fueled worker:
variables read their binding (`instantiateVariable` asserts boundness),
pattern terms materialize their children and `add` themselves.  Returns the
produced class ids (a singleton for `InstJob.one`). -/
def Graph.instantiateAux : Nat → Graph → InstJob → BPtr → List Bindings →
    List Nat × Graph
  | 0, g, _, _, _ => ([], g)
  | _ + 1, g, InstJob.one (Pattern.var s), p, bs =>
      ([(bindingsFindMap (bs.getD p []) s).getD 0], g)
  | fuel + 1, g, InstJob.one (Pattern.term n args), p, bs =>
      let r := Graph.instantiateAux fuel g (InstJob.row args) p bs
      let r2 := r.2.add ⟨n, r.1⟩
      ([r2.1], r2.2)
  | _ + 1, g, InstJob.row [], _, _ => ([], g)
  | fuel + 1, g, InstJob.row (pat :: pats), p, bs =>
      let r1 := Graph.instantiateAux fuel g (InstJob.one pat) p bs
      let r2 := Graph.instantiateAux fuel r1.2 (InstJob.row pats) p bs
      (r1.1 ++ r2.1, r2.2)

/-- `Graph::instantiatePattern` (EGraph.h:511-524). -/
def Graph.instantiatePattern (fuel : Nat) (g : Graph) (pattern : Pattern)
    (p : BPtr) (bs : List Bindings) : Nat × Graph :=
  let r := Graph.instantiateAux fuel g (InstJob.one pattern) p bs
  (r.1.headD 0, r.2)

/-- `Graph::rewrite` (EGraph.h:404-423): the collect phase runs the matcher
over every class of the class map (one fresh empty `SymbolBindings` object
per class) and instantiates both sides of the rule under every returned
binding; the apply phase unites every recorded pair.  The source does NOT
call `restoreInvariants` afterwards.  The collect loop iterates the class map
as it was on entry (instantiation may add classes; the C++ iterates the
container by reference while inserting, the model iterates the entry
snapshot). -/
def Graph.rewrite (fuel : Nat) (g : Graph) (rule : RewriteRule) : Graph :=
  let collected := g.classes.foldl
    (fun (acc : List (Nat × Nat) × Graph) e =>
      let mr := Graph.matchPattern acc.2 fuel rule.leftHand e.1 0 [[]]
      mr.1.foldl
        (fun (acc2 : List (Nat × Nat) × Graph) bp =>
          let l := Graph.instantiatePattern fuel acc2.2 rule.leftHand bp mr.2
          let r := Graph.instantiatePattern fuel l.2 rule.rightHand bp mr.2
          (acc2.1 ++ [(l.1, r.1)], r.2))
        (acc.1, acc.2))
    ([], g)
  collected.1.foldl (fun gA m => (gA.unite m.1 m.2).2) collected.2

/-! ## Serialization (Serialization.h)

`Serialization.h` names the term cache `termsLookup`; it is the `termsCache`
member of `EGraph.h`.  The cereal byte encoding is an external collaborator;
the DTO is the modelled serialized form. -/

/-- `GraphDTO::Term` (Serialization.h:30-41). -/
structure DTOTerm where
  leafId : Nat
  name : String
  childrenIds : List Nat
deriving DecidableEq

/-- `GraphDTO::Class` (Serialization.h:43-54). -/
structure DTOClass where
  classId : Nat
  termIds : List Nat
  parentIds : List Nat
deriving DecidableEq

/-- `e::GraphDTO` (Serialization.h:26-65). -/
structure GraphDTO where
  unionFind : List Nat
  terms : List DTOTerm
  classes : List DTOClass
deriving DecidableEq

/-- `termsLookup.at(term)` used by `serialize`: value of the first entry
comparing equal to the queried term. -/
def cacheAt (g : Graph) (a : Addr) : Nat := (g.lookup a).getD 0

/-- `e::serialize` (Serialization.h:67-103), up to the byte encoding. -/
def serialize (g : Graph) : GraphDTO :=
  { unionFind := g.unionFind
    terms := g.termsCache.map
      (fun e => ⟨e.2, (g.heapData e.1).name, (g.heapData e.1).children⟩)
    classes := g.classes.map
      (fun e =>
        ⟨e.1, e.2.terms.map (cacheAt g),
          e.2.parents.map (fun pr => cacheAt g pr.term)⟩) }

/-- Assignment into the local `HashMap<ClassId, Term::Ptr> termsLookup` of
`deserialize`. -/
def idMapAssign (m : List (Nat × Addr)) (k : Nat) (v : Addr) : List (Nat × Addr) :=
  if m.any (fun e => e.1 == k) then
    m.map (fun e => if e.1 == k then (k, v) else e)
  else m ++ [(k, v)]

/-- `e::deserialize` (Serialization.h:105-147): rebuild fresh term objects
(one allocation per DTO term, in order), refill the term cache, and rebuild
the classes by leaf-id lookup.  The dirty worklist is not serialized and
starts empty.  (`Serialization.h` constructs `Class` objects without a seed
term; the rebuilt class starts from empty vectors.) -/
def deserialize (dto : GraphDTO) : Graph :=
  let heap := dto.terms.map (fun t => (⟨t.name, t.childrenIds⟩ : TermData))
  let cache := (dto.terms.enum.foldl
    (fun (acc : List (Addr × Nat)) ti => cacheAssign heap acc ti.1 ti.2.leafId) [])
  let termsLookup := dto.terms.enum.foldl
    (fun (acc : List (Nat × Addr)) ti => idMapAssign acc ti.2.leafId ti.1) []
  let lookupAt := fun lid => (((termsLookup.find? (fun e => e.1 == lid)).map (·.2)).getD 0)
  let classes := dto.classes.foldl
    (fun (acc : List (Nat × ClassData)) cls =>
      classesAssign acc cls.classId
        ⟨cls.classId,
          cls.termIds.map lookupAt,
          cls.parentIds.map (fun lid => ⟨lookupAt lid, lid⟩)⟩)
    []
  { unionFind := dto.unionFind
    classes := classes
    termsCache := cache
    dirtyTerms := []
    heap := heap }

/-! ## Spec-modelled reference definitions

Two definitions below follow the specification's words instead of the source,
because two claims assert that the source refines them; they exist only to be
compared against the source-derived definitions. -/

/-- Modelled from the spec (§4.4.3 Phase A): "Remove `t` from the cache under
its *old* key (its pre-canonicalization hash/identity)" — erase the first
entry comparing equal to the popped term. -/
def cacheEraseFirst (heap : List TermData) : List (Addr × Nat) → Addr →
    List (Addr × Nat)
  | [], _ => []
  | e :: es, t => if termEqB heap e.1 t then es else e :: cacheEraseFirst heap es t

/-- Modelled from the spec (§4.4.3 Phase A, design note "Cache re-keying
during rebuild", policy (a)): identical to `Graph.restoreInvariantsLoop`
except that the popped term is removed from the cache under its old key
BEFORE its children are canonicalized; on a hit the already-cached congruent
term keeps its entry.  The source does not perform the removal; this
definition exists to compare the two behaviours. -/
def Graph.restoreInvariantsLoopSpec : Nat → Graph → Graph
  | 0, g => g
  | fuel + 1, g =>
      match g.dirtyTerms.getLast? with
      | none => g
      | some updated =>
          let g0 : Graph :=
            { g with dirtyTerms := g.dirtyTerms.dropLast,
                     termsCache := cacheEraseFirst g.heap g.termsCache updated.term }
          let g1 : Graph :=
            { g0 with heap := canonTermHeap g0.unionFind g0.heap updated.term }
          match g1.lookup updated.term with
          | some cachedTermId =>
              Graph.restoreInvariantsLoopSpec fuel (g1.unite cachedTermId updated.termId).2
          | none =>
              Graph.restoreInvariantsLoopSpec fuel
                { g1 with termsCache := (updated.term, updated.termId) :: g1.termsCache }

/-- The spec-modelled rebuild: Phase A with removal-before-canonicalization,
then the same Phase B as the source. -/
def Graph.restoreInvariantsSpec (fuel : Nat) (g : Graph) : Graph :=
  (Graph.restoreInvariantsLoopSpec fuel g).rebuildClasses

/-- Work items of the spec-modelled reference matcher. -/
inductive SpecMatchJob where
  | pat (pattern : Pattern) (classId : Nat) (b : Bindings)
  | termLoop (name : String) (args : List Pattern) (ts : List Addr) (b : Bindings)
  | many (pats : List Pattern) (classIds : List Nat) (b : Bindings)

/-- Modelled from the spec (§4.5.1): the reference matcher over value-typed
bindings — a variable either checks its binding under `find` or emits one
extended copy; a pattern term matches every fitting term of the root's class
and takes the pairwise Cartesian product over the children.  Bindings are
values; nothing is shared between alternatives.  Exists to be compared with
`Graph.matchPattern`. -/
def matchSpecAux (g : Graph) : Nat → SpecMatchJob → List Bindings
  | 0, _ => []
  | _ + 1, SpecMatchJob.pat (Pattern.var s) classId b =>
      match bindingsFindMap b s with
      | some c =>
          if ufFind g.unionFind c = ufFind g.unionFind classId then [b] else []
      | none => [bindingsAddMap b s (ufFind g.unionFind classId)]
  | fuel + 1, SpecMatchJob.pat (Pattern.term n args) classId b =>
      let rootId := ufFind g.unionFind classId
      let cls := (g.classesFind rootId).getD ⟨rootId, [], []⟩
      matchSpecAux g fuel (SpecMatchJob.termLoop n args cls.terms b)
  | _ + 1, SpecMatchJob.termLoop _ _ [] _ => []
  | fuel + 1, SpecMatchJob.termLoop name args (t :: ts) b =>
      let d := g.heapData t
      (if d.name == name && d.children.length == args.length then
        matchSpecAux g fuel (SpecMatchJob.many args d.children b)
      else []) ++ matchSpecAux g fuel (SpecMatchJob.termLoop name args ts b)
  | _ + 1, SpecMatchJob.many [] _ b => [b]
  | fuel + 1, SpecMatchJob.many (pat :: pats) classIds b =>
      (matchSpecAux g fuel (SpecMatchJob.pat pat (classIds.headD 0) b)).foldl
        (fun acc b1 =>
          acc ++ matchSpecAux g fuel (SpecMatchJob.many pats classIds.tail b1)) []

/-- The spec-modelled `match(pattern, class_id, bindings)` (spec §4.5.1). -/
def matchPatternSpec (g : Graph) (fuel : Nat) (pattern : Pattern)
    (classId : Nat) (b : Bindings) : List Bindings :=
  matchSpecAux g fuel (SpecMatchJob.pat pattern classId b)

/-! ## Concrete runs used by the claims

Trace A: `x`, `y`, `f(x)`, `f(y)` (leaf ids 0..3, heap addresses 0..3),
rebuild, `unite(x, y)`, rebuild.  After the first rebuild the dirty worklist
holds nothing; `unite(0, 1)` keeps root 0 and enqueues only `f(y)`.  Popping
`f(y)` canonicalizes it in place to `f(0)`; the subsequent cache search finds
the mutated term itself (it is the newest entry of the `"f"` bucket), so
`unite(4's leaf, 4's leaf)` is a no-op and the congruence with the equally
shaped `f(x)` is silently missed. -/

def gA1 : Graph := (Graph.empty.addTerm "x").2
def gA2 : Graph := (gA1.addTerm "y").2
def gA3 : Graph := (gA2.addOperation "f" [0]).2
def gA4 : Graph := (gA3.addOperation "f" [1]).2
def gA5 : Graph := gA4.restoreInvariants 20
def gA6 : Graph := (gA5.unite 0 1).2
def gA7 : Graph := gA6.restoreInvariants 20

/-- The rewrite rule `x => y` over ground pattern terms (both sides are
`PatternTerm`s with no arguments). -/
def ruleXY : RewriteRule := ⟨Pattern.term "x" [], Pattern.term "y" []⟩

/-- Trace B: `x`, `y`, `f(x)`, `f(y)` then one `rewrite` with `x => y`. -/
def gB1 : Graph := Graph.rewrite 30 gA4 ruleXY

/-- C1.  After any sequence of `addTerm`/`addOperation`/`unite` calls followed
by a completed rebuild, congruence closure is claimed: cached terms with the
same name and pairwise `find`-equal children lie in `find`-equal classes.
The run of trace A refutes this on the source: the rebuild completes (the
dirty worklist is drained, the union-find is well-formed), the two cached
terms at addresses 2 and 3 (`f(x)` and `f(y)`) have the same name and
`find`-equal children, both are stored as the seed terms of the live classes
2 and 3, yet their cached leaf ids 2 and 3 resolve to different roots. -/
theorem congruence_closure_violated :
    (gA7.dirtyTerms = [] ∧ UFWF gA7.unionFind)
    ∧ ((gA7.heapData 2).name = (gA7.heapData 3).name
        ∧ (gA7.heapData 2).children.map gA7.find
            = (gA7.heapData 3).children.map gA7.find)
    ∧ ((2, 2) ∈ gA7.termsCache ∧ (3, 3) ∈ gA7.termsCache)
    ∧ (gA7.classes.map (fun e => e.1) = [0, 2, 3]
        ∧ ((gA7.classesFind 2).getD ⟨2, [], []⟩).terms = [2]
        ∧ ((gA7.classesFind 3).getD ⟨3, [], []⟩).terms = [3])
    ∧ gA7.find 2 ≠ gA7.find 3 := by
  decide

/-- Expression trees of the test language; `buildExpr` mirrors
`TestLanguage::makeExpression` (Tests.cpp:98-131): atoms via `addTerm`,
binary operations via `addOperation` on the children's ids. -/
inductive Expr where
  | atom (s : String)
  | op (s : String) (l r : Expr)

def buildExpr : Expr → Graph → Nat × Graph
  | Expr.atom s, g => g.addTerm s
  | Expr.op s l r, g =>
      let rl := buildExpr l g
      let rr := buildExpr r rl.2
      rr.2.addOperation s [rl.1, rr.1]

/-- `(a * b) * (b + c)` of `rewriteIdentityRuleTest` (Tests.cpp:157). -/
def eAbbc : Expr :=
  Expr.op "*" (Expr.op "*" (Expr.atom "a") (Expr.atom "b"))
    (Expr.op "+" (Expr.atom "b") (Expr.atom "c"))

/-- `(a * b) * ((b + c) * 1)`, the `id1` expression (Tests.cpp:158). -/
def eId1 : Expr :=
  Expr.op "*" (Expr.op "*" (Expr.atom "a") (Expr.atom "b"))
    (Expr.op "*" (Expr.op "+" (Expr.atom "b") (Expr.atom "c")) (Expr.atom "1"))

/-- `((a * b) * (b + c)) * 1`, the `id3` expression (Tests.cpp:160). -/
def eId3 : Expr := Expr.op "*" eAbbc (Expr.atom "1")

def tAbbc : Nat × Graph := buildExpr eAbbc Graph.empty
def tId1 : Nat × Graph := buildExpr eId1 tAbbc.2
def tId3 : Nat × Graph := buildExpr eId3 tId1.2

/-- The rule `$x * 1 => $x` (Tests.cpp:163). -/
def identityRule : RewriteRule :=
  ⟨Pattern.term "*" [Pattern.var "x", Pattern.term "1" []], Pattern.var "x"⟩

/-- The graph of (a fragment of) `rewriteIdentityRuleTest` after the test's
explicit `restoreInvariants()` call (Tests.cpp:166). -/
def gIdTest : Graph := tId3.2.restoreInvariants 60

/-- The same graph after `eGraph.rewrite(identityRule)` (Tests.cpp:172). -/
def gIdTestR : Graph := Graph.rewrite 60 gIdTest identityRule

set_option maxRecDepth 100000 in
/-- C2.  The claim says one `rewrite` call ends by calling `rebuild`, so the
invariants are restored when it returns.  On trace B the collect and apply
phases do run (`x` and `y` get united), but the returned graph still has a
non-empty dirty worklist and the congruent pair `f(x)`, `f(y)` in different
classes; running `restoreInvariants` on the result changes the observable
`find` answers, so `rewrite` cannot have called it.  The last conjunct
replays `rewriteIdentityRuleTest` (Tests.cpp:152-179) up to `id3`: right
after `eGraph.rewrite(identityRule)` the test asserts
`eGraph.find(id1) == eGraph.find(abbc)`, an equality that only the rebuild's
congruence propagation could establish — on the source it does not hold, so
the code also contradicts its own test suite. -/
theorem rewrite_skips_rebuild :
    (gB1.find 0 = gB1.find 1
      ∧ gB1.dirtyTerms ≠ []
      ∧ gB1.find 2 ≠ gB1.find 3
      ∧ (gB1.restoreInvariants 30).find 2 = (gB1.restoreInvariants 30).find 3)
    ∧ gIdTestR.find tId1.1 ≠ gIdTestR.find tAbbc.1 := by
  decide

/-! ## Hash-consing (`add`), frame behaviour of `unite`, serialization -/

theorem add_of_hit {g : Graph} {d : TermData} {id : Nat}
    (h : g.lookupData d = some id) : g.add d = (id, g) := by
  unfold Graph.add
  rw [h]

theorem lookupData_of_add_miss {g : Graph} {d : TermData}
    (h : g.lookupData d = none) :
    (g.add d).2.lookupData d = some (g.add d).1 := by
  unfold Graph.add
  rw [h]
  dsimp only [Graph.lookupData, Graph.heapData]
  rw [List.find?_cons_of_pos]
  · rfl
  · simp [List.getD_eq_getElem?_getD, List.getElem?_concat_length]

/-- C5.  `add` is idempotent hash-consing: an immediate second `add` of a
structurally equal term returns the same `ClassId` and leaves the whole graph
— class map, class count, parent edges, cache, worklist, arena — unchanged.
(`addTerm`/`addOperation` are `add` after building the `(name, children)`
payload, so the law covers both.) -/
theorem add_idempotent (g : Graph) (d : TermData) :
    (g.add d).2.add d = ((g.add d).1, (g.add d).2) := by
  cases h : g.lookupData d with
  | some id =>
      rw [add_of_hit h]
      exact add_of_hit h
  | none => exact add_of_hit (lookupData_of_add_miss h)

theorem unite_of_find_eq {g : Graph} {a b : Nat}
    (h : ufFind g.unionFind a = ufFind g.unionFind b) :
    g.unite a b = (false, g) := by
  unfold Graph.unite
  rw [if_pos h]

/-- C10.  Uniting two already-equivalent ids returns `false` and leaves the
graph unchanged: class map, term cache, dirty worklist and every `find`
answer are exactly as before (the source may additionally path-compress
inside `find`, which rewrites internal parent links but never the roots;
the model states the claim over the compression-free semantics). -/
theorem unite_equivalent_noop (g : Graph) (a b : Nat)
    (h : g.find a = g.find b) : g.unite a b = (false, g) :=
  unite_of_find_eq h

/-- Witness for C10 on a concrete graph where leaf ids 0 and 1 are equivalent
but distinct. -/
theorem unite_equivalent_noop_witness : gA6.unite 0 1 = (false, gA6) :=
  unite_equivalent_noop gA6 0 1 (by decide)

/-- C9.  The serialize/deserialize round-trip copies the union-find parent
array verbatim, so every `find` answer — hence every equality of `find`
answers over pairs of leaf ids valid in the original graph — is preserved. -/
theorem serialize_roundtrip_preserves_find (g : Graph) (a b : Nat)
    (ha : a < g.unionFind.length) (hb : b < g.unionFind.length) :
    ((deserialize (serialize g)).find a = (deserialize (serialize g)).find b
      ↔ g.find a = g.find b) := by
  have huf : (deserialize (serialize g)).unionFind = g.unionFind := rfl
  unfold Graph.find
  rw [huf]

/-- Witness for C9 on the rebuilt trace-A graph. -/
theorem serialize_roundtrip_preserves_find_witness :
    (2 < gA7.unionFind.length ∧ 3 < gA7.unionFind.length)
    ∧ ((deserialize (serialize gA7)).find 2 = (deserialize (serialize gA7)).find 3
        ↔ gA7.find 2 = gA7.find 3) :=
  ⟨by decide, serialize_roundtrip_preserves_find gA7 2 3 (by decide) (by decide)⟩

/-! ## The matcher's shared-bindings aliasing (C3) -/

/-- Trace C: `x`, `y`, `f(x)`, `f(y)` with the classes of `f(x)` and `f(y)`
united (so one class holds two `f`-terms), no rebuild in between. -/
def gC3 : Graph := (gA4.unite 2 3).2

/-- The pattern `f($v)`. -/
def patFV : Pattern := Pattern.term "f" [Pattern.var "v"]

/-- The matcher run of claim C3: `f($v)` against the united class, starting
from one fresh empty bindings object. -/
def c3run : List BPtr × List Bindings := Graph.matchPattern gC3 30 patFV 2 0 [[]]

/-- C3 counterexample.  Matching `f($v)` against a class holding the two
terms `f(y)` and `f(x)` must produce the two bindings `{v → find(y)}` and
`{v → find(x)}` under the reference semantics of spec §4.5.1 (and the
spec-modelled matcher does).  The source matcher binds `v` in the shared
`SymbolBindings` object while visiting the first term, the second term then
sees `v` already bound to a different class and is rejected: the binding leaked
into the sibling alternative, and the returned binding set is a strict
prefix of the reference result. -/
theorem matcher_shared_bindings_cex :
    c3run.1.map (fun p => c3run.2.getD p []) = [[("v", 1)]]
    ∧ matchPatternSpec gC3 30 patFV 2 [] = [[("v", 1)], [("v", 0)]]
    ∧ c3run.1.map (fun p => c3run.2.getD p [])
        ≠ matchPatternSpec gC3 30 patFV 2 [] := by
  decide

/-- C3 amended.  `matchVariable` does not branch on a fresh copy: on an
unbound variable it writes the binding into the shared `SymbolBindings`
object through the pointer and returns that same pointer, so the binding
stays visible to every sibling alternative explored afterwards (and the
matcher can return strictly fewer bindings than the reference semantics of
spec §4.5.1, as the counterexample shows). -/
theorem matchVariable_mutates_shared_bindings (g : Graph) (s : String)
    (classId : Nat) (p : BPtr) (bs : List Bindings)
    (h : bindingsFindMap (bs.getD p []) s = none) :
    g.matchVariable s classId p bs
      = ([p], bs.set p
          (bindingsAddMap (bs.getD p []) s (ufFind g.unionFind classId))) := by
  unfold Graph.matchVariable
  rw [h]

/-- Witness for the amended C3 statement: binding `v` on the fresh shared
object of trace C mutates it in place and hands back the same pointer. -/
theorem matchVariable_mutates_shared_bindings_witness :
    bindingsFindMap ([[]] : List Bindings).headI "v" = none
    ∧ gC3.matchVariable "v" 1 0 [[]] = ([0], [[("v", 1)]]) :=
  ⟨by decide, by
    rw [matchVariable_mutates_shared_bindings gC3 "v" 1 0 [[]] (by decide)]
    decide⟩

/-! ## Cache handling during rebuild Phase A (C4) -/

/-- C4 counterexample.  The claim (spec §4.4.3, policy (a)) says every popped
term is removed from the cache under its old key before canonicalization and
re-inserted afterwards.  The source never removes: on trace A the cache size
is unchanged across the rebuild and both structurally identical keys (the
mutated `f(y)` and the untouched `f(x)`) survive with different,
non-equivalent leaf ids — the stale duplicate the claim rules out.  The
spec-modelled remove-first variant `Graph.restoreInvariantsSpec` shrinks the
cache and unites the pair, so the two behaviours differ observably. -/
theorem rebuild_never_removes_cache_entries_cex :
    gA7.termsCache.length = gA6.termsCache.length
    ∧ ((2, 2) ∈ gA7.termsCache ∧ (3, 3) ∈ gA7.termsCache
        ∧ gA7.heapData 2 = gA7.heapData 3 ∧ gA7.find 2 ≠ gA7.find 3)
    ∧ (gA6.restoreInvariantsSpec 20).termsCache.length
        < gA6.termsCache.length
    ∧ (gA6.restoreInvariantsSpec 20).find 2
        = (gA6.restoreInvariantsSpec 20).find 3 := by
  decide

theorem unite_termsCache (g : Graph) (a b : Nat) :
    (g.unite a b).2.termsCache = g.termsCache := by
  by_cases h : ufFind g.unionFind a = ufFind g.unionFind b
  · unfold Graph.unite
    rw [if_pos h]
  · unfold Graph.unite
    rw [if_neg h]

theorem cacheAssignGo_length (heap : List TermData) (t : Addr) (v : Nat) :
    ∀ c : List (Addr × Nat), (cacheAssignGo heap c t v).length = c.length := by
  intro c
  induction c with
  | nil => rfl
  | cons e es ih =>
      unfold cacheAssignGo
      by_cases h : termEqB heap e.1 t = true
      · rw [if_pos h]
        simp
      · rw [if_neg h]
        simp only [List.length_cons, ih]

theorem cacheAssign_length (heap : List TermData) (c : List (Addr × Nat))
    (t : Addr) (v : Nat) : c.length ≤ (cacheAssign heap c t v).length := by
  unfold cacheAssign
  by_cases h : c.any (fun e => termEqB heap e.1 t) = true
  · rw [if_pos h, cacheAssignGo_length]
  · rw [if_neg h]
    exact Nat.le_succ _

theorem restoreInvariantsLoop_cache_monotone (fuel : Nat) :
    ∀ g : Graph, g.termsCache.length
      ≤ (Graph.restoreInvariantsLoop fuel g).termsCache.length := by
  induction fuel with
  | zero => intro g; exact le_refl _
  | succ fuel ih =>
      intro g
      unfold Graph.restoreInvariantsLoop
      cases hpop : g.dirtyTerms.getLast? with
      | none => exact le_refl _
      | some updated =>
          dsimp only
          cases hlook :
              Graph.lookup
                { g with dirtyTerms := g.dirtyTerms.dropLast,
                         heap := canonTermHeap g.unionFind g.heap updated.term }
                updated.term with
          | some cachedTermId =>
              dsimp only
              refine le_trans ?_ (ih _)
              dsimp only
              rw [unite_termsCache]
              exact cacheAssign_length _ _ _ _
          | none =>
              dsimp only
              refine le_trans ?_ (ih _)
              dsimp only
              exact Nat.le_succ _

/-- C4 amended.  During rebuild Phase A the popped term is never removed from
the cache: its children are canonicalized in place first (the name-only hash
keeps the entry findable), then the first structurally matching entry is
re-pointed at the popped term's leaf id, or a fresh entry is inserted.
Consequently the cache never shrinks across a rebuild — where the claimed
remove-before-canonicalize policy shrinks it whenever a congruent partner is
already cached (see the counterexample) — and a stale structurally duplicate
entry can survive. -/
theorem restoreInvariants_cache_monotone (fuel : Nat) (g : Graph) :
    g.termsCache.length ≤ (g.restoreInvariants fuel).termsCache.length := by
  have hB : (Graph.restoreInvariantsLoop fuel g).rebuildClasses.termsCache
      = (Graph.restoreInvariantsLoop fuel g).termsCache := rfl
  unfold Graph.restoreInvariants
  rw [hB]
  exact restoreInvariantsLoop_cache_monotone fuel g

/-! ## Class canonicalization (C8) -/

/-- A one-member class whose parents list carries the same back-edge twice
(as produced by repeated `addParent` calls, which the source tolerates). -/
def c8heap : List TermData := [⟨"f", [0]⟩]

def c8class : ClassData := ⟨0, [0], [⟨0, 5⟩, ⟨0, 5⟩]⟩

/-- C8 counterexample.  The claim says `Class::restoreInvariants` sorts and
deduplicates both the `terms` vector and the `parents` vector; the source
only processes `terms` (the `fixme` comment asks whether parents should be
deduplicated too, and they are not): a duplicated parent entry survives
canonicalization verbatim. -/
theorem class_restore_keeps_duplicate_parents :
    (c8class.restoreInvariants [0] c8heap).1.parents = [⟨0, 5⟩, ⟨0, 5⟩]
    ∧ ¬ (c8class.restoreInvariants [0] c8heap).1.parents.Nodup := by
  decide

theorem cppUniqueAux_sublist {α : Type} (eqv : α → α → Bool) :
    ∀ (last : α) (l : List α), (cppUniqueAux eqv last l).Sublist l := by
  intro last l
  induction l generalizing last with
  | nil => simp [cppUniqueAux]
  | cons x xs ih =>
      unfold cppUniqueAux
      by_cases h : eqv last x = true
      · rw [if_pos h]
        exact (ih last).cons x
      · rw [if_neg h]
        exact (ih x).cons₂ x

theorem cppUniqueAux_chain {α : Type} (eqv : α → α → Bool) :
    ∀ (last : α) (l : List α),
      List.Chain' (fun a b => eqv a b = false) (last :: cppUniqueAux eqv last l) := by
  intro last l
  induction l generalizing last with
  | nil => simp [cppUniqueAux]
  | cons x xs ih =>
      unfold cppUniqueAux
      by_cases h : eqv last x = true
      · rw [if_pos h]
        exact ih last
      · rw [if_neg h]
        rw [List.chain'_cons]
        simp only [Bool.not_eq_true] at h
        exact ⟨h, ih x⟩

theorem chain'_and {α : Type} {R S : α → α → Prop} :
    ∀ {l : List α}, List.Chain' R l → List.Chain' S l →
      List.Chain' (fun a b => R a b ∧ S a b) l := by
  intro l
  induction l with
  | nil => intro _ _; exact List.chain'_nil
  | cons a t ih =>
      cases t with
      | nil => intro _ _; exact List.chain'_singleton a
      | cons b t2 =>
          intro h1 h2
          rw [List.chain'_cons] at h1 h2 ⊢
          exact ⟨⟨h1.1, h2.1⟩, ih h1.2 h2.2⟩

theorem termEqB_refl (heap : List TermData) (a : Addr) :
    termEqB heap a a = true := by
  simp [termEqB]

/-- `std::unique` after a sort by pointer value leaves no two equal pointers:
sortedness makes equal addresses adjacent and the comparator's
pointer-equality fast path removes them, so the surviving addresses are
strictly increasing. -/
theorem cppUnique_nodup_of_sorted (heap : List TermData) (l : List Nat)
    (hs : l.Sorted (· ≤ ·)) : (cppUnique (termEqB heap) l).Nodup := by
  cases l with
  | nil => simp [cppUnique]
  | cons x xs =>
      show (x :: cppUniqueAux (termEqB heap) x xs).Nodup
      have hchain := cppUniqueAux_chain (termEqB heap) x xs
      have hsub : (x :: cppUniqueAux (termEqB heap) x xs).Sublist (x :: xs) :=
        (cppUniqueAux_sublist (termEqB heap) x xs).cons₂ x
      have hpw : (x :: cppUniqueAux (termEqB heap) x xs).Pairwise (· ≤ ·) :=
        hs.sublist hsub
      have hle : List.Chain' (· ≤ ·) (x :: cppUniqueAux (termEqB heap) x xs) :=
        hpw.chain'
      have hcomb := chain'_and hle hchain
      have hlt : List.Chain' (· < ·) (x :: cppUniqueAux (termEqB heap) x xs) := by
        refine hcomb.imp ?_
        intro a b hab
        rcases Nat.lt_or_ge a b with h | h
        · exact h
        · have hab' : a = b := Nat.le_antisymm hab.1 h
          rw [hab'] at hab
          rw [termEqB_refl heap b] at hab
          exact absurd hab.2 (by simp)
      have hplt : (x :: cppUniqueAux (termEqB heap) x xs).Pairwise (· < ·) :=
        List.chain'_iff_pairwise.mp hlt
      exact hplt.imp Nat.ne_of_lt

/-- C8 amended.  `Class::restoreInvariants` canonicalizes every member
term's children, then sorts the `terms` vector by pointer value and removes
consecutive `operator==`-equal entries, so no pointer occurs twice in the
result; the `parents` vector is left completely unchanged (it is neither
sorted nor deduplicated). -/
theorem class_restore_parents_unchanged_terms_nodup (c : ClassData)
    (ps : List Nat) (heap : List TermData) :
    (c.restoreInvariants ps heap).1.parents = c.parents
    ∧ (c.restoreInvariants ps heap).1.terms.Nodup := by
  refine ⟨rfl, ?_⟩
  exact cppUnique_nodup_of_sorted
    (c.terms.foldl (fun h a => canonTermHeap ps h a) heap)
    (c.terms.insertionSort (· ≤ ·))
    (List.sorted_insertionSort (· ≤ ·) c.terms)

/-! ## `unite` makes its arguments equivalent (C6) -/

theorem unite_unionFind_of_ne {g : Graph} {a b : Nat}
    (h : ¬ ufFind g.unionFind a = ufFind g.unionFind b) :
    (g.unite a b).2.unionFind
        = g.unionFind.set (ufFind g.unionFind a) (ufFind g.unionFind b)
    ∨ (g.unite a b).2.unionFind
        = g.unionFind.set (ufFind g.unionFind b) (ufFind g.unionFind a) := by
  by_cases hp :
      ((g.classesFind (ufFind g.unionFind a)).map (fun c => c.parents.length)).getD 0
        < ((g.classesFind (ufFind g.unionFind b)).map (fun c => c.parents.length)).getD 0
  · left
    unfold Graph.unite
    rw [if_neg h]
    dsimp only
    rw [if_pos hp]
    rfl
  · right
    unfold Graph.unite
    rw [if_neg h]
    dsimp only
    rw [if_neg hp]
    rfl

/-- C6.  For ids valid in a well-formed graph, `unite(a, b)` makes `find(a)`
and `find(b)` agree, and an immediately following second `unite(a, b)`
returns `false`. -/
theorem unite_find_equal_second_false (g : Graph) (a b : Nat)
    (hwf : UFWF g.unionFind)
    (ha : a < g.unionFind.length) (hb : b < g.unionFind.length) :
    (g.unite a b).2.find a = (g.unite a b).2.find b
    ∧ ((g.unite a b).2.unite a b).1 = false := by
  have hfind : (g.unite a b).2.find a = (g.unite a b).2.find b := by
    by_cases h : ufFind g.unionFind a = ufFind g.unionFind b
    · rw [unite_of_find_eq h]
      exact h
    · have hra : IsRoot g.unionFind (ufFind g.unionFind a) := ufFind_root hwf a
      have hrb : IsRoot g.unionFind (ufFind g.unionFind b) := ufFind_root hwf b
      have hlta : ufFind g.unionFind a < g.unionFind.length := findAux_lt hwf.1 ha _
      have hltb : ufFind g.unionFind b < g.unionFind.length := findAux_lt hwf.1 hb _
      show ufFind (g.unite a b).2.unionFind a = ufFind (g.unite a b).2.unionFind b
      rcases unite_unionFind_of_ne h with huf | huf
      · rw [huf,
          ufFind_set hwf hrb hra (fun he => h he.symm) hltb hlta a,
          ufFind_set hwf hrb hra (fun he => h he.symm) hltb hlta b,
          if_pos rfl, if_neg (fun he => h he.symm)]
      · rw [huf,
          ufFind_set hwf hra hrb h hlta hltb a,
          ufFind_set hwf hra hrb h hlta hltb b,
          if_neg h, if_pos rfl]
  refine ⟨hfind, ?_⟩
  rw [unite_of_find_eq hfind]

/-- Witness for C6: on the four-term graph of trace A, uniting the leaf
classes 0 and 1 equates their roots and a second `unite` reports `false`. -/
theorem unite_find_equal_second_false_witness :
    (UFWF gA4.unionFind ∧ 0 < gA4.unionFind.length ∧ 1 < gA4.unionFind.length)
    ∧ ((gA4.unite 0 1).2.find 0 = (gA4.unite 0 1).2.find 1
        ∧ ((gA4.unite 0 1).2.unite 0 1).1 = false) :=
  ⟨by decide,
    unite_find_equal_second_false gA4 0 1 (by decide) (by decide) (by decide)⟩

/-! ## Canonical children after rebuild (C7)

The rebuild loop calls `unite` with ids drawn from the term cache, the dirty
worklist and class parent lists; `RebuildInv` states that those ids lie
within the union-find and that the union-find is a forest.  Every state the
source reaches satisfies it (ids are handed out by `addSet`), and it is
decidable, so witnesses can check it by evaluation. -/

/-- All ids Phase A can feed into `unite` stay within the union-find. -/
def IdsBounded (g : Graph) : Prop :=
  (∀ e ∈ g.termsCache, e.2 < g.unionFind.length)
  ∧ (∀ e ∈ g.dirtyTerms, e.termId < g.unionFind.length)
  ∧ ∀ ce ∈ g.classes, ∀ pr ∈ ce.2.parents, pr.termId < g.unionFind.length

instance (g : Graph) : Decidable (IdsBounded g) := by
  unfold IdsBounded; infer_instance

/-- Well-formedness needed by the rebuild: forest union-find, bounded ids. -/
def RebuildInv (g : Graph) : Prop := UFWF g.unionFind ∧ IdsBounded g

instance (g : Graph) : Decidable (RebuildInv g) := by
  unfold RebuildInv; infer_instance

theorem mem_classesAssign {cs : List (Nat × ClassData)} {id : Nat}
    {c : ClassData} {x : Nat × ClassData} (hx : x ∈ classesAssign cs id c) :
    x = (id, c) ∨ x ∈ cs := by
  unfold classesAssign at hx
  by_cases h : cs.any (fun e => e.1 == id)
  · rw [if_pos h] at hx
    obtain ⟨e, he, hee⟩ := List.mem_map.mp hx
    by_cases h2 : e.1 == id
    · rw [if_pos h2] at hee
      exact Or.inl hee.symm
    · rw [if_neg h2] at hee
      exact Or.inr (hee ▸ he)
  · rw [if_neg h] at hx
    rcases List.mem_append.mp hx with h1 | h1
    · exact Or.inr h1
    · exact Or.inl (List.mem_singleton.mp h1)

theorem classesFind_some_mem {g : Graph} {r : Nat} {c : ClassData}
    (h : g.classesFind r = some c) : ∃ e ∈ g.classes, e.2 = c := by
  unfold Graph.classesFind at h
  cases hf : g.classes.find? (fun e => e.1 == r) with
  | none => rw [hf] at h; exact absurd h (by simp)
  | some e =>
      rw [hf] at h
      exact ⟨e, List.mem_of_find?_eq_some hf, by simpa using h⟩

theorem classesFind_parents_bounded {g : Graph} {r : Nat}
    (hb : ∀ ce ∈ g.classes, ∀ pr ∈ ce.2.parents,
      pr.termId < g.unionFind.length) :
    ∀ pr ∈ ((g.classesFind r).getD ⟨r, [], []⟩).parents,
      pr.termId < g.unionFind.length := by
  cases hf : g.classesFind r with
  | none => intro pr hpr; rw [Option.getD_none] at hpr; exact absurd hpr (by simp)
  | some c =>
      intro pr hpr
      rw [Option.getD_some] at hpr
      obtain ⟨e, he, rfl⟩ := classesFind_some_mem hf
      exact hb e he pr hpr

/-- The `unite` result in the non-trivial case, spelled out: some orientation
`(k, l)` of the two roots is linked `l → k`, the keeper class absorbs the
other, the absorbed class is erased and its parents are prepended to the
dirty worklist. -/
theorem unite_of_ne {g : Graph} {a b : Nat}
    (h : ¬ ufFind g.unionFind a = ufFind g.unionFind b) :
    ∃ k l,
      ((k, l) = (ufFind g.unionFind a, ufFind g.unionFind b)
        ∨ (k, l) = (ufFind g.unionFind b, ufFind g.unionFind a))
      ∧ (g.unite a b).2 =
        { unionFind := g.unionFind.set l k
          classes := (classesAssign g.classes k
              (((g.classesFind k).getD ⟨k, [], []⟩).uniteWith
                ((g.classesFind l).getD ⟨l, [], []⟩))).filter
              (fun e => e.1 != l)
          termsCache := g.termsCache
          dirtyTerms := ((g.classesFind l).getD ⟨l, [], []⟩).parents
              ++ g.dirtyTerms
          heap := g.heap } := by
  by_cases hp :
      ((g.classesFind (ufFind g.unionFind a)).map (fun c => c.parents.length)).getD 0
        < ((g.classesFind (ufFind g.unionFind b)).map (fun c => c.parents.length)).getD 0
  · refine ⟨ufFind g.unionFind b, ufFind g.unionFind a, Or.inr rfl, ?_⟩
    unfold Graph.unite
    rw [if_neg h]
    dsimp only
    rw [if_pos hp]
    rfl
  · refine ⟨ufFind g.unionFind a, ufFind g.unionFind b, Or.inl rfl, ?_⟩
    unfold Graph.unite
    rw [if_neg h]
    dsimp only
    rw [if_neg hp]
    rfl

/-- `unite` with in-range arguments preserves the rebuild invariant and the
union-find size. -/
theorem unite_preserves_inv {g : Graph} {a b : Nat} (hinv : RebuildInv g)
    (ha : a < g.unionFind.length) (hb : b < g.unionFind.length) :
    RebuildInv (g.unite a b).2
    ∧ (g.unite a b).2.unionFind.length = g.unionFind.length := by
  by_cases h : ufFind g.unionFind a = ufFind g.unionFind b
  · rw [unite_of_find_eq h]
    exact ⟨hinv, rfl⟩
  · obtain ⟨k, l, hor, hres⟩ := unite_of_ne h
    have hra : IsRoot g.unionFind (ufFind g.unionFind a) :=
      ufFind_root hinv.1 a
    have hrb : IsRoot g.unionFind (ufFind g.unionFind b) :=
      ufFind_root hinv.1 b
    have hlta : ufFind g.unionFind a < g.unionFind.length :=
      findAux_lt hinv.1.1 ha _
    have hltb : ufFind g.unionFind b < g.unionFind.length :=
      findAux_lt hinv.1.1 hb _
    have hk : IsRoot g.unionFind k ∧ k < g.unionFind.length := by
      rcases hor with he | he <;> rw [Prod.mk.injEq] at he
      · exact he.1 ▸ ⟨hra, hlta⟩
      · exact he.1 ▸ ⟨hrb, hltb⟩
    have hl : IsRoot g.unionFind l ∧ l < g.unionFind.length := by
      rcases hor with he | he <;> rw [Prod.mk.injEq] at he
      · exact he.2 ▸ ⟨hrb, hltb⟩
      · exact he.2 ▸ ⟨hra, hlta⟩
    have hkl : k ≠ l := by
      rcases hor with he | he <;> rw [Prod.mk.injEq] at he
      · exact fun hc => h (he.1 ▸ he.2 ▸ hc)
      · exact fun hc => h (he.1 ▸ he.2 ▸ hc).symm
    have hlen : (g.unionFind.set l k).length = g.unionFind.length :=
      List.length_set g.unionFind l k
    rw [hres]
    refine ⟨⟨?_, ?_, ?_, ?_⟩, hlen⟩
    · exact UFWF_set hinv.1 hk.1 hl.1 hkl hk.2 hl.2
    · intro e he
      rw [hlen]
      exact hinv.2.1 e he
    · intro e he
      rw [hlen]
      rcases List.mem_append.mp he with he | he
      · exact classesFind_parents_bounded hinv.2.2.2 e he
      · exact hinv.2.2.1 e he
    · intro ce hce pr hpr
      rw [hlen]
      have hce2 := (List.mem_filter.mp hce).1
      rcases mem_classesAssign hce2 with rfl | hce3
      · rcases List.mem_append.mp hpr with hp2 | hp2
        · exact classesFind_parents_bounded hinv.2.2.2 pr hp2
        · exact classesFind_parents_bounded hinv.2.2.2 pr hp2
      · exact hinv.2.2.2 ce hce3 pr hpr

theorem mem_cacheAssignGo {heap : List TermData} {t : Addr} {v : Nat}
    {x : Addr × Nat} :
    ∀ {c : List (Addr × Nat)}, x ∈ cacheAssignGo heap c t v →
      x.2 = v ∨ x ∈ c := by
  intro c
  induction c with
  | nil => intro hx; exact absurd hx (by simp [cacheAssignGo])
  | cons e es ih =>
      intro hx
      unfold cacheAssignGo at hx
      by_cases h : termEqB heap e.1 t = true
      · rw [if_pos h] at hx
        rcases List.mem_cons.mp hx with rfl | hx2
        · exact Or.inl rfl
        · exact Or.inr (List.mem_cons_of_mem e hx2)
      · rw [if_neg h] at hx
        rcases List.mem_cons.mp hx with rfl | hx2
        · exact Or.inr (List.mem_cons_self x es)
        · rcases ih hx2 with h2 | h2
          · exact Or.inl h2
          · exact Or.inr (List.mem_cons_of_mem e h2)

theorem mem_cacheAssign {heap : List TermData} {c : List (Addr × Nat)}
    {t : Addr} {v : Nat} {x : Addr × Nat} (hx : x ∈ cacheAssign heap c t v) :
    x.2 = v ∨ x ∈ c := by
  unfold cacheAssign at hx
  by_cases h : c.any (fun e => termEqB heap e.1 t) = true
  · rw [if_pos h] at hx
    exact mem_cacheAssignGo hx
  · rw [if_neg h] at hx
    rcases List.mem_cons.mp hx with rfl | hx2
    · exact Or.inl rfl
    · exact Or.inr hx2

/-- One Phase A pop preserves the rebuild invariant; the worklist loop keeps
the union-find well-formed and its size constant. -/
theorem restoreInvariantsLoop_preserves_inv (fuel : Nat) :
    ∀ g : Graph, RebuildInv g →
      RebuildInv (Graph.restoreInvariantsLoop fuel g)
      ∧ (Graph.restoreInvariantsLoop fuel g).unionFind.length
          = g.unionFind.length := by
  induction fuel with
  | zero => exact fun g h => ⟨h, rfl⟩
  | succ fuel ih =>
      intro g hinv
      unfold Graph.restoreInvariantsLoop
      cases hpop : g.dirtyTerms.getLast? with
      | none => exact ⟨hinv, rfl⟩
      | some updated =>
          dsimp only
          have hupd : updated.termId < g.unionFind.length :=
            hinv.2.2.1 updated (List.mem_of_mem_getLast? hpop)
          have hg1 : RebuildInv
              { g with dirtyTerms := g.dirtyTerms.dropLast,
                       heap := canonTermHeap g.unionFind g.heap updated.term } := by
            refine ⟨hinv.1, hinv.2.1, ?_, hinv.2.2.2⟩
            intro e he
            exact hinv.2.2.1 e ((List.dropLast_sublist g.dirtyTerms).mem he)
          cases hlook : Graph.lookup
              { g with dirtyTerms := g.dirtyTerms.dropLast,
                       heap := canonTermHeap g.unionFind g.heap updated.term }
              updated.term with
          | some cachedTermId =>
              dsimp only
              have hcached : cachedTermId < g.unionFind.length := by
                unfold Graph.lookup Graph.lookupData at hlook
                cases hf : List.find?
                    (fun e =>
                      Graph.heapData
                        { g with dirtyTerms := g.dirtyTerms.dropLast,
                                 heap := canonTermHeap g.unionFind g.heap updated.term } e.1
                      == Graph.heapData
                        { g with dirtyTerms := g.dirtyTerms.dropLast,
                                 heap := canonTermHeap g.unionFind g.heap updated.term }
                        updated.term)
                    g.termsCache with
                | none => rw [hf] at hlook; exact absurd hlook (by simp)
                | some e =>
                    rw [hf] at hlook
                    have he := List.mem_of_find?_eq_some hf
                    have : e.2 = cachedTermId := by simpa using hlook
                    exact this ▸ hinv.2.1 e he
              have hu := unite_preserves_inv hg1 hcached hupd
              have hg3 : RebuildInv
                  { (Graph.unite
                      { g with dirtyTerms := g.dirtyTerms.dropLast,
                               heap := canonTermHeap g.unionFind g.heap updated.term }
                      cachedTermId updated.termId).2 with
                    termsCache := cacheAssign
                      (Graph.unite
                          { g with dirtyTerms := g.dirtyTerms.dropLast,
                                   heap := canonTermHeap g.unionFind g.heap updated.term }
                          cachedTermId updated.termId).2.heap
                      (Graph.unite
                          { g with dirtyTerms := g.dirtyTerms.dropLast,
                                   heap := canonTermHeap g.unionFind g.heap updated.term }
                          cachedTermId updated.termId).2.termsCache
                      updated.term updated.termId } := by
                refine ⟨hu.1.1, ?_, hu.1.2.2.1, hu.1.2.2.2⟩
                intro e he
                rcases mem_cacheAssign he with h2 | h2
                · rw [h2, hu.2]
                  exact hupd
                · exact hu.1.2.1 e h2
              have hr := ih _ hg3
              refine ⟨hr.1, ?_⟩
              rw [hr.2]
              exact hu.2
          | none =>
              dsimp only
              have hg2 : RebuildInv
                  { g with dirtyTerms := g.dirtyTerms.dropLast,
                           heap := canonTermHeap g.unionFind g.heap updated.term,
                           termsCache := (updated.term, updated.termId)
                              :: g.termsCache } := by
                refine ⟨hg1.1, ?_, hg1.2.2.1, hg1.2.2.2⟩
                intro e he
                rcases List.mem_cons.mp he with rfl | h2
                · exact hupd
                · exact hg1.2.1 e h2
              exact ih _ hg2

/-- Address `t`'s children are all union-find roots in heap `heap`. -/
def HeapCanonical (ps : List Nat) (heap : List TermData) (t : Addr) : Prop :=
  ∀ c ∈ (heap.getD t emptyTerm).children, ufFind ps c = c

theorem ufFind_fix {ps : List Nat} (hwf : UFWF ps) (c : Nat) :
    ufFind ps (ufFind ps c) = ufFind ps c := ufFind_idem hwf c

theorem canonTermHeap_self {ps : List Nat} (hwf : UFWF ps)
    (heap : List TermData) (a : Addr) :
    HeapCanonical ps (canonTermHeap ps heap a) a := by
  intro c hc
  by_cases ha : a < heap.length
  · unfold canonTermHeap at hc
    rw [List.getD_eq_getElem?_getD, List.getElem?_set_self (by simpa using ha)] at hc
    simp only [Option.getD_some] at hc
    obtain ⟨x, _, rfl⟩ := List.mem_map.mp hc
    exact ufFind_fix hwf x
  · unfold canonTermHeap at hc
    have hset : heap.set a
        { heap.getD a emptyTerm with
          children := (heap.getD a emptyTerm).children.map (ufFind ps) } = heap :=
      List.set_eq_of_length_le (Nat.le_of_not_lt ha)
    rw [hset] at hc
    have hd : heap.getD a emptyTerm = emptyTerm :=
      List.getD_eq_default _ _ (Nat.le_of_not_lt ha)
    rw [hd] at hc
    exact absurd hc (by simp [emptyTerm])

theorem canonTermHeap_preserves {ps : List Nat} {heap : List TermData}
    {t : Addr} (hc : HeapCanonical ps heap t) (hwf : UFWF ps) (a : Addr) :
    HeapCanonical ps (canonTermHeap ps heap a) t := by
  by_cases hat : t = a
  · rw [hat]
    exact canonTermHeap_self hwf heap a
  · intro c hcc
    unfold canonTermHeap at hcc
    rw [List.getD_eq_getElem?_getD, List.getElem?_set_ne (fun he => hat he.symm),
      ← List.getD_eq_getElem?_getD] at hcc
    exact hc c hcc

/-- Folding in-place canonicalization over a list of addresses makes each of
them canonical and keeps every already-canonical address canonical. -/
theorem foldl_canonTermHeap {ps : List Nat} (hwf : UFWF ps) :
    ∀ (ts : List Addr) (heap : List TermData),
      (∀ t ∈ ts, HeapCanonical ps
        (ts.foldl (fun h a => canonTermHeap ps h a) heap) t)
      ∧ ∀ t, HeapCanonical ps heap t →
          HeapCanonical ps (ts.foldl (fun h a => canonTermHeap ps h a) heap) t := by
  intro ts
  induction ts with
  | nil => exact fun heap => ⟨fun t ht => absurd ht (by simp), fun t ht => ht⟩
  | cons a ts ih =>
      intro heap
      constructor
      · intro t ht
        rcases List.mem_cons.mp ht with rfl | ht2
        · exact (ih (canonTermHeap ps heap t)).2 t (canonTermHeap_self hwf heap t)
        · exact (ih (canonTermHeap ps heap a)).1 t ht2
      · intro t ht
        exact (ih (canonTermHeap ps heap a)).2 t (canonTermHeap_preserves ht hwf a)

theorem cppUnique_sublist {α : Type} (eqv : α → α → Bool) (l : List α) :
    (cppUnique eqv l).Sublist l := by
  cases l with
  | nil => exact List.Sublist.refl []
  | cons x xs => exact (cppUniqueAux_sublist eqv x xs).cons₂ x

/-- Terms surviving class canonicalization come from the original class. -/
theorem class_restore_terms_subset (c : ClassData) (ps : List Nat)
    (heap : List TermData) :
    ∀ t ∈ (c.restoreInvariants ps heap).1.terms, t ∈ c.terms := by
  intro t ht
  have h1 : t ∈ c.terms.insertionSort (· ≤ ·) :=
    (cppUnique_sublist _ _).mem ht
  exact (List.perm_insertionSort (· ≤ ·) c.terms).mem_iff.mp h1

/-- Phase B makes every term of every class hold canonical children. -/
theorem rebuild_fold_canonical {ps : List Nat} (hwf : UFWF ps) :
    ∀ (L : List (Nat × ClassData)) (acc : List (Nat × ClassData) × List TermData),
      (∀ ce ∈ acc.1, ∀ t ∈ ce.2.terms, HeapCanonical ps acc.2 t) →
      ∀ ce ∈ (L.foldl
          (fun (acc2 : List (Nat × ClassData) × List TermData) e =>
            let r := e.2.restoreInvariants ps acc2.2
            (acc2.1 ++ [(e.1, r.1)], r.2)) acc).1,
        ∀ t ∈ ce.2.terms,
          HeapCanonical ps (L.foldl
            (fun (acc2 : List (Nat × ClassData) × List TermData) e =>
              let r := e.2.restoreInvariants ps acc2.2
              (acc2.1 ++ [(e.1, r.1)], r.2)) acc).2 t := by
  intro L
  induction L with
  | nil => exact fun acc hacc => hacc
  | cons e L ih =>
      intro acc hacc
      simp only [List.foldl_cons]
      apply ih
      intro ce hce t ht
      rcases List.mem_append.mp hce with hce2 | hce2
      · -- previously processed class: stays canonical under more canonicalization
        exact (foldl_canonTermHeap hwf e.2.terms acc.2).2 t (hacc ce hce2 t ht)
      · -- the class just processed: its surviving terms were canonicalized
        rw [List.mem_singleton] at hce2
        subst hce2
        have ht2 : t ∈ e.2.terms := class_restore_terms_subset e.2 ps acc.2 t ht
        exact (foldl_canonTermHeap hwf e.2.terms acc.2).1 t ht2

/-- C7.  Immediately after a completed rebuild, canonical children hold: for
every live class, every member term, and every child id of that term,
`find(id) = id`. -/
theorem canonical_children_after_rebuild (fuel : Nat) (g : Graph)
    (hinv : RebuildInv g)
    (hdone : (g.restoreInvariants fuel).dirtyTerms = []) :
    ∀ ce ∈ (g.restoreInvariants fuel).classes,
      ∀ t ∈ ce.2.terms,
        ∀ c ∈ ((g.restoreInvariants fuel).heapData t).children,
          (g.restoreInvariants fuel).find c = c := by
  have hloop := restoreInvariantsLoop_preserves_inv fuel g hinv
  have hwf : UFWF (Graph.restoreInvariantsLoop fuel g).unionFind := hloop.1.1
  intro ce hce t ht c hc
  have hmain := rebuild_fold_canonical hwf
    (Graph.restoreInvariantsLoop fuel g).classes
    ([], (Graph.restoreInvariantsLoop fuel g).heap)
    (fun ce2 hce2 => absurd hce2 (by simp))
    ce hce t ht
  exact hmain c hc

/-- Witness for C7: the rebuild of trace A (after `unite(0, 1)`) satisfies the
invariant hypotheses, and its result has only canonical children. -/
theorem canonical_children_after_rebuild_witness :
    (RebuildInv gA6 ∧ (gA6.restoreInvariants 20).dirtyTerms = [])
    ∧ ∀ ce ∈ (gA6.restoreInvariants 20).classes,
        ∀ t ∈ ce.2.terms,
          ∀ c ∈ ((gA6.restoreInvariants 20).heapData t).children,
            (gA6.restoreInvariants 20).find c = c :=
  ⟨⟨by decide, by decide⟩,
    canonical_children_after_rebuild 20 gA6 (by decide) (by decide)⟩

end EGraphModel
